import Mathlib

/-!
Verification of the quad mesh generation core in
stompy/grid/quad_laplacian.py.

Definitions are shallow embeddings of the Python source.  Machine floats
are modelled as exact rationals where a claim is about exact arithmetic,
and as an IEEE-style extension of the rationals (with infinities and a
not-a-number element) where a claim is about finiteness of floating
results.  A doc comment starting with "Modelled from the spec:" marks a
definition whose Python source file is not part of the source tree
(helpers from stompy.utils, stompy.grid.front, stompy.grid.unstructured_grid);
those definitions follow the specification text.
-/

set_option allowUnsafeReducibility true

attribute [semireducible] Rat.add Rat.sub Rat.mul Rat.inv

/-- Dictionary lookup with last-assignment-wins semantics, modelling a
Python dict built by successive assignments (and the overwrite behaviour
of scipy dok_matrix entries). -/
def dictLast {α : Type} : List (ℕ × α) → ℕ → Option α
  | [], _ => none
  | (k, v) :: rest, n =>
    match dictLast rest n with
    | some w => some w
    | none => if k = n then some v else none

/-- Applying one assembled dok-matrix row to an all-ones vector: the sum,
over the distinct column keys, of the last value assigned to each key. -/
def dokOnes (entries : List (ℕ × ℚ)) : ℚ :=
  ((entries.map Prod.fst).dedup.map (fun k => (dictLast entries k).getD 0)).sum

/-! ## NodeDiscretization (quad_laplacian.py lines 24-158), exact-arithmetic model

Used by claims C1 and C10.  All float arithmetic is modelled as exact
rational arithmetic (claim C1 is explicitly about exact arithmetic; its
statement is independent of rounding).  Note that over the rationals a
division by a zero area yields 0 instead of an infinity; the finiteness
assertion of the source (line 155) is therefore vacuous in this model and
is treated separately, with float semantics, for claim C7. -/

/-- The three operator kinds accepted by node_discretization; any other
op string raises in the source. -/
inductive DiffOp where
  | laplacian
  | dx
  | dy
deriving DecidableEq, Repr

/-- The generating grid as seen by NodeDiscretization: node coordinates,
angle-sorted adjacent nodes, and the boundary-node predicate. -/
structure DiscGrid where
  x : ℕ → ℚ
  y : ℕ → ℚ
  angle_sort_adjacent_nodes : ℕ → List ℕ
  is_boundary_node : ℕ → Bool

/-- Modelled from the spec: utils.signed_area is not under src/.  Standard
signed area of a triangle (half the cross product of two edge vectors).
The row-sum theorem for claim C1 is proved for an arbitrary assignment of
triangle areas (lap_row_sum_zero), so nothing there depends on this choice. -/
def signed_area (p q r : ℚ × ℚ) : ℚ :=
  ((q.1 - p.1) * (r.2 - p.2) - (r.1 - p.1) * (q.2 - p.2)) / 2

/-- Neighbor coefficient for op='laplacian' (lines 114-118).  Python index
arithmetic (n-1)%M and (n-1)%P on possibly negative n-1 is written
(n+M-1)%M and (n+P-1)%P, which agrees with Python semantics for n ≥ 0. -/
def lapAlpha (X Y : ℕ → ℚ) (x0 y0 : ℚ) (A : ℕ → ℚ) (P M n : ℕ) : ℚ :=
  (if 0 < n ∨ P = M then
    -1 / (4 * A ((n + M - 1) % M)) *
      ((Y ((n + P - 1) % P) - Y n) * (y0 - Y ((n + P - 1) % P)) +
       (X n - X ((n + P - 1) % P)) * (X ((n + P - 1) % P) - x0))
   else 0)
  + (if n < M then
    -1 / (4 * A n) *
      ((Y n - Y ((n + 1) % P)) * (Y ((n + 1) % P) - y0) +
       (X ((n + 1) % P) - X n) * (x0 - X ((n + 1) % P)))
   else 0)

/-- One term of the self coefficient for op='laplacian' (line 138). -/
def lapAlpha0Term (X Y : ℕ → ℚ) (A : ℕ → ℚ) (P e : ℕ) : ℚ :=
  -1 / (4 * A e) * ((Y e - Y ((e + 1) % P)) ^ 2 + (X ((e + 1) % P) - X e) ^ 2)

/-- Neighbor coefficient for op='dx' (lines 119-123). -/
def dxAlpha (Y : ℕ → ℚ) (y0 : ℚ) (AT : ℚ) (P M n : ℕ) : ℚ :=
  (if 0 < n ∨ P = M then 1 / (2 * AT) * (y0 - Y ((n + P - 1) % P)) else 0)
  + (if n < M then 1 / (2 * AT) * (Y ((n + 1) % P) - y0) else 0)

/-- Neighbor coefficient for op='dy' (lines 124-128). -/
def dyAlpha (X : ℕ → ℚ) (x0 : ℚ) (AT : ℚ) (P M n : ℕ) : ℚ :=
  (if 0 < n ∨ P = M then 1 / (2 * AT) * (X ((n + P - 1) % P) - x0) else 0)
  + (if n < M then 1 / (2 * AT) * (x0 - X ((n + 1) % P)) else 0)

/-- One application of np.roll(N, 1): rotate the list right by one. -/
def rollRight1 (l : List ℕ) : List ℕ :=
  l.drop (l.length - 1) ++ l.take (l.length - 1)

/-- Condition of the roll loop (line 92): the first and last neighbors
are both boundary nodes.  False on the empty list, where the Python code
raises an IndexError. -/
def rollOK (g : DiscGrid) (l : List ℕ) : Bool :=
  match l.head?, l.getLast? with
  | some a, some b => g.is_boundary_node a && g.is_boundary_node b
  | _, _ => false

/-- The roll loop of lines 90-94.  The loop visits rotations cyclically,
so fuel = length + 1 suffices to try every state; if no rotation
satisfies the condition the Python loop never terminates, modelled by
none. -/
def rollToBoundary (g : DiscGrid) : ℕ → List ℕ → Option (List ℕ)
  | 0, _ => none
  | fuel + 1, l => if rollOK g l then some l else rollToBoundary g fuel (rollRight1 l)

/-- node_discretization (lines 79-158) with exact rational arithmetic.
beta(c) = 1.0 is inlined.  Returns none when the source diverges or
raises: the roll loop not terminating, or the index expression (n-1)%M
raising ZeroDivisionError when M = 0 while the loop body runs (P > 0).
The finiteness assertion of line 155 always holds over the rationals.
In the gamma term (lines 146-152) norm_grad = 0 makes the parenthesized
sum exactly zero, so the sqrt-valued edge lengths are multiplied by zero
and gamma is 3/AT * 0; this avoids irrational square roots. -/
def node_discretization (g : DiscGrid) (n0 : ℕ) (op : DiffOp) :
    Option (List ℕ × List ℚ × ℚ) :=
  let N0 := g.angle_sort_adjacent_nodes n0
  let P := N0.length
  let isB := g.is_boundary_node n0
  let M := P - (if isB then 1 else 0)
  let rolled := if isB then rollToBoundary g (P + 1) N0 else some N0
  match rolled with
  | none => none
  | some N =>
    if M = 0 ∧ 0 < P then none
    else
      let X : ℕ → ℚ := fun i => g.x (N.getD i 0)
      let Y : ℕ → ℚ := fun i => g.y (N.getD i 0)
      let x0 := g.x n0
      let y0 := g.y n0
      let A : ℕ → ℚ := fun m =>
        signed_area (x0, y0) (X m, Y m) (X ((m + 1) % P), Y ((m + 1) % P))
      let AT : ℚ := ((List.range M).map A).sum
      let alphas : List ℚ :=
        (List.range P).map (fun n =>
          match op with
          | .laplacian => lapAlpha X Y x0 y0 A P M n
          | .dx => dxAlpha Y y0 AT P M n
          | .dy => dyAlpha X x0 AT P M n)
      let alpha0 : ℚ :=
        ((List.range M).map (fun e =>
          match op with
          | .laplacian => lapAlpha0Term X Y A P e
          | .dx => 1 / (2 * AT) * (Y e - Y ((e + 1) % P))
          | .dy => 1 / (2 * AT) * (X ((e + 1) % P) - X e))).sum
      let gamma : ℚ := if op = .laplacian ∧ M < P then 3 / AT * 0 else 0
      some (n0 :: N, alpha0 :: alphas, -gamma)

/-- Leader lookup built by construct_matrix lines 42-47: for each group
the first member is the leader, and every member (the leader included) is
assigned to it; a node in several groups keeps the last assignment. -/
def tangential_leader (zero_tangential_nodes : List (List ℕ)) (n : ℕ) : Option ℕ :=
  dictLast ((zero_tangential_nodes.map
    (fun grp => grp.map (fun member => (member, grp.headD 0)))).flatten) n

/-- One row of construct_matrix (lines 49-70): Dirichlet identity row,
else tangential equality row (zero row for a leader), else the node
discretization row. -/
def construct_matrix_row (g : DiscGrid) (op : DiffOp) (dirichlet_nodes : List (ℕ × ℚ))
    (zero_tangential_nodes : List (List ℕ)) (n : ℕ) : Option (List ℕ × List ℚ × ℚ) :=
  match dictLast dirichlet_nodes n with
  | some v => some ([n], [1], v)
  | none =>
    match tangential_leader zero_tangential_nodes n with
    | some leader =>
      if n = leader then some ([n], [0], (0 : ℚ))
      else some ([n, leader], [1, -1], (0 : ℚ))
    | none => node_discretization g n op

/-- The row of the assembled sparse matrix applied to an all-ones vector
(the rhs entry plays no role): entries are written into the dok matrix in
list order, so the row value at a column is the last assignment. -/
def row_apply_ones (r : List ℕ × List ℚ × ℚ) : ℚ :=
  dokOnes (r.1.zip r.2.1)

/-- The first summand of lapAlpha at neighbor (e+1) % P, written as a
function of the fan index e; used to reindex the neighbor-coefficient sum
over triangle fans. -/
def lapT1 (X Y : ℕ → ℚ) (x0 y0 : ℚ) (A : ℕ → ℚ) (P e : ℕ) : ℚ :=
  -1 / (4 * A e) *
    ((Y e - Y ((e + 1) % P)) * (y0 - Y e) +
     (X ((e + 1) % P) - X e) * (X e - x0))

/-- The second summand of lapAlpha at neighbor n. -/
def lapT2 (X Y : ℕ → ℚ) (x0 y0 : ℚ) (A : ℕ → ℚ) (P n : ℕ) : ℚ :=
  -1 / (4 * A n) *
    ((Y n - Y ((n + 1) % P)) * (Y ((n + 1) % P) - y0) +
     (X ((n + 1) % P) - X n) * (x0 - X ((n + 1) % P)))

/-- Concrete interior-node configuration: node 0 at the origin with the
four unit-axis neighbors 1..4 in cyclic angular order. -/
def c1Grid : DiscGrid where
  x := fun n => [0, 1, 0, -1, 0].getD n 0
  y := fun n => [0, 0, 1, 0, -1].getD n 0
  angle_sort_adjacent_nodes := fun n => if n = 0 then [1, 2, 3, 4] else []
  is_boundary_node := fun _ => false

/-! ## coalesce_ij_nominal (quad_laplacian.py lines 262-328), claim C2

The per-axis walk of the boundary cycle (lines 295-315) extracts, for
each pair of consecutive fixed nodes a, b along the rolled cycle, the
node pair, the physical arc length d_ab = dists[b] - dists[a] (via
utils.dist_along, cumulative Euclidean distance) and the logical delta
dij_ab.  The step construction and the rounding-error redistribution are
modelled below on that extracted segment list, in exact arithmetic. -/

/-- One boundary segment between consecutive fixed nodes. -/
structure CycleSeg where
  na : ℕ
  nb : ℕ
  d_ab : ℚ
  dij_ab : ℚ
deriving DecidableEq, Repr

/-- np.round semantics: round half to even. -/
def roundHalfEven (q : ℚ) : ℤ :=
  let f := ⌊q⌋
  let r := q - f
  if r < 1/2 then f
  else if 1/2 < r then f + 1
  else if Even f then f else f + 1

/-- Raw integer step count of one segment (lines 310-315): zero when the
logical delta is zero, else the sign of the delta times
int(max(min_steps, d_ab/nom_res)); int() truncates toward zero and the
magnitude is nonnegative, so it is the floor of the magnitude. -/
def stepOfSeg (min_steps : ℕ) (nom_res : ℚ) (s : CycleSeg) : ℤ :=
  if s.dij_ab = 0 then 0
  else (if 0 < s.dij_ab then 1 else -1) * ⌊max (min_steps : ℚ) (s.d_ab / nom_res)⌋

/-- err_dist of line 320 at index k: np.round of err times the k-th entry
of np.cumsum(np.r_[0, stepsizes]) divided by the total step size. -/
def errDist (err : ℤ) (sizes : List ℕ) (total : ℕ) (k : ℕ) : ℤ :=
  roundHalfEven ((err : ℚ) * (((sizes.take k).sum : ℕ) : ℚ) / (total : ℚ))

/-- Corrected per-segment steps (lines 316-322): the raw steps minus the
per-segment differences of err_dist. -/
def coalesceSteps (min_steps : ℕ) (nom_res : ℚ) (segs : List CycleSeg) : List ℤ :=
  let raw := segs.map (stepOfSeg min_steps nom_res)
  let err := raw.sum
  let sizes := raw.map Int.natAbs
  let total := sizes.sum
  (List.range raw.length).map (fun k =>
    raw.getD k 0 - (errDist err sizes total (k + 1) - errDist err sizes total k))


/-! ## create_intermediate_grid (quad_laplacian.py lines 365-490), claim C3

The per-cell loop orients each edge logical delta (sign flip when the
edge first-cell reference is not the current cell, lines 387-393),
accumulates cumulative logical positions from the starting node (line
396), asserts tolerance-based loop closure (line 399), and only then
builds the rectilinear patch (lines 404-412).  Modelled up to the
add_rectilinear call: its arguments p0, p1, nx, ny are returned. -/

/-- One generating edge as seen from the per-cell loop: its logical
delta gen.edges['d'+src][j] and its first cell reference
gen.edges['cells'][j,0]. -/
structure GenEdgeRef where
  dij : ℚ × ℚ
  cell0 : ℤ
deriving DecidableEq, Repr

/-- Edge deltas oriented for traversal of cell c (lines 388-393):
flipped when the edge first-cell reference is not c. -/
def orientedDijs (c : ℤ) (es : List GenEdgeRef) : List (ℚ × ℚ) :=
  es.map (fun e => if e.cell0 ≠ c then (-e.dij.1, -e.dij.2) else e.dij)

/-- np.cumsum of np.vstack([ij0, dijs]) along axis 0: the list of
partial sums starting at ij0, of length one more than dijs. -/
def cumsum2 : (ℚ × ℚ) → List (ℚ × ℚ) → List (ℚ × ℚ)
  | s, [] => [s]
  | s, d :: ds => s :: cumsum2 (s.1 + d.1, s.2 + d.2) ds

/-- Scalar np.allclose component: |a - b| <= atol + rtol * |b| with the
numpy defaults rtol = 1e-5, atol = 1e-8. -/
def allcloseQ (a b : ℚ) : Bool :=
  decide (|a - b| ≤ 1 / 100000000 + 1 / 100000 * |b|)

/-- np.allclose on coordinate pairs. -/
def allclose2 (a b : ℚ × ℚ) : Bool :=
  allcloseQ a.1 b.1 && allcloseQ a.2 b.2

/-- Minimum of a rational list, first element as the starting value
(np.min of a nonempty array; 0 on the empty list). -/
def listMinQ : List ℚ → ℚ
  | [] => 0
  | q :: qs => qs.foldl min q

/-- Maximum of a rational list, first element as the starting value. -/
def listMaxQ : List ℚ → ℚ
  | [] => 0
  | q :: qs => qs.foldl max q

/-- The arguments handed to g.add_rectilinear (lines 409-412). -/
structure PatchSpec where
  p0 : ℚ × ℚ
  p1 : ℚ × ℚ
  nx : ℤ
  ny : ℤ
deriving DecidableEq, Repr

/-- The cell-local part of create_intermediate_grid up to the patch
construction: orient deltas, accumulate, assert closure (np.allclose of
ijs[0] and ijs[-1], fatal on failure, modelled by none), then compute
the patch bounding box; int() of the nonnegative sizes is their floor. -/
def createIntermediatePatch (c : ℤ) (es : List GenEdgeRef) (ij0 : ℚ × ℚ) :
    Option PatchSpec :=
  let dijs := orientedDijs c es
  let ijs := cumsum2 ij0 dijs
  if allclose2 (ijs.headD (0, 0)) (ijs.getLastD (0, 0)) then
    let ijsTrim := ijs.dropLast
    let ijmin : ℚ × ℚ := (listMinQ (ijsTrim.map Prod.fst), listMinQ (ijsTrim.map Prod.snd))
    let ijmax : ℚ × ℚ := (listMaxQ (ijsTrim.map Prod.fst), listMaxQ (ijsTrim.map Prod.snd))
    some ⟨ijmin, ijmax, ⌊1 + (ijmax.1 - ijmin.1)⌋, ⌊1 + (ijmax.2 - ijmin.2)⌋⟩
  else none


/-! ## calc_psi_phi boundary grouping and Dirichlet pins
(quad_laplacian.py lines 799-864), claim C4 -/

/-- State of the grouping loop of lines 830-856: the i and j tangential
groups in creation (encounter) order, the shared value recorded at each
group creation (i_tan_groups_i / j_tan_groups_j), and which group, if
any, is currently open for extension (the Python variables i_grp and
j_grp, as indices into the group lists). -/
structure PsiPhiGroups where
  igs : List (List ℕ)
  ivals : List ℚ
  jgs : List (List ℕ)
  jvals : List ℚ
  icur : Option ℕ
  jcur : Option ℕ
deriving DecidableEq, Repr

/-- One iteration of the loop body (lines 835-856) on the pair (n1, n2):
equal i extends or creates an i-group (creating resets the open j-group),
else equal j does the same for j-groups, else the pair is only warned
about and the state is unchanged.  A created group starts as [n1] and n2
is appended to the open group in both cases, so it holds [n1, n2]. -/
def groupStep (ij : ℕ → ℚ × ℚ) (st : PsiPhiGroups) (n1 n2 : ℕ) : PsiPhiGroups :=
  if (ij n1).1 = (ij n2).1 then
    match st.icur with
    | none =>
      { st with
        igs := st.igs ++ [[n1, n2]]
        ivals := st.ivals ++ [(ij n1).1]
        icur := some st.igs.length
        jcur := none }
    | some k => { st with igs := st.igs.set k ((st.igs.getD k []) ++ [n2]) }
  else if (ij n1).2 = (ij n2).2 then
    match st.jcur with
    | none =>
      { st with
        jgs := st.jgs ++ [[n1, n2]]
        jvals := st.jvals ++ [(ij n1).2]
        jcur := some st.jgs.length
        icur := none }
    | some k => { st with jgs := st.jgs.set k ((st.jgs.getD k []) ++ [n2]) }
  else st

/-- The grouping loop over the boundary cycle: n1 starts at the last
cycle node (line 831) and the loop walks n2 through the cycle, so the
processed pairs are zip (last :: bcycle) bcycle. -/
def runGroups (ij : ℕ → ℚ × ℚ) (bcycle : List ℕ) : PsiPhiGroups :=
  match bcycle.getLast? with
  | none => ⟨[], [], [], [], none, none⟩
  | some nlast =>
    ((nlast :: bcycle).zip bcycle).foldl (fun st p => groupStep ij st p.1 p.2)
      ⟨[], [], [], [], none, none⟩

/-- np.argmin: index of the first occurrence of the minimum. -/
def argminIdx : List ℚ → ℕ
  | [] => 0
  | [_] => 0
  | x :: y :: rest =>
    if x ≤ (y :: rest).getD (argminIdx (y :: rest)) 0 then 0
    else argminIdx (y :: rest) + 1

/-- np.argmax: index of the first occurrence of the maximum. -/
def argmaxIdx : List ℚ → ℕ
  | [] => 0
  | [_] => 0
  | x :: y :: rest =>
    if (y :: rest).getD (argmaxIdx (y :: rest)) 0 ≤ x then 0
    else argmaxIdx (y :: rest) + 1

/-- The Dirichlet pins of lines 858-864: psi pinned to -1 at the first
member (leader) of the i-group at np.argmin of the recorded i values and
to +1 at the leader of the group at np.argmax; phi pinned to +1 at the
leader of j_tan_groups[1].  none models the ValueError of np.argmin on
an empty sequence and the IndexError of j_tan_groups[1]. -/
def calcPins (st : PsiPhiGroups) : Option (List (ℕ × ℚ) × List (ℕ × ℚ)) :=
  if st.ivals.isEmpty then none
  else if st.jgs.length < 2 then none
  else
    some ([((st.igs.getD (argminIdx st.ivals) []).headD 0, -1),
           ((st.igs.getD (argmaxIdx st.ivals) []).headD 0, 1)],
      [((st.jgs.getD 1 []).headD 0, 1)])

/-- The logical coordinates of the C4 witness: the boundary of a 2 by 2
logical square, nodes 0..7 counterclockwise. -/
def c4ij : ℕ → ℚ × ℚ := fun n =>
  [((0 : ℚ), (0 : ℚ)), (1, 0), (2, 0), (2, 1), (2, 2), (1, 2), (0, 2), (0, 1)].getD n (0, 0)

/-- The C4 witness boundary cycle, started so that no constant-i run is
split across the cycle start. -/
def c4cycle : List ℕ := [1, 2, 3, 4, 5, 6, 7, 0]


/-! ## smooth_interior_quads (quad_laplacian.py lines 678-782), claims C5 and C6 -/

/-- The intermediate grid as seen by smooth_interior_quads: total node
count N (the system has 2N unknowns, x stacked over y), the valid node
list, positions, the rigid flag, the boundary predicate, the generating
edge back-reference gen_j, and node adjacency. -/
structure SmoothGrid where
  N : ℕ
  nodes : List ℕ
  pos : ℕ → ℚ × ℚ
  rigid : ℕ → Bool
  is_boundary_node : ℕ → Bool
  gen_j : ℕ → ℤ
  node_to_nodes : ℕ → List ℕ

/-- The matrix rows written for a rigid boundary node n (lines 710-714):
M[n,n] = 1 with rhs x[n,0], and M[N+n,N+n] = 1 with rhs x[n,1]; no other
entry is written in these two rows. -/
def rigid_rows (g : SmoothGrid) (n : ℕ) : List (List (ℕ × ℚ) × ℚ) :=
  [([(n, 1)], (g.pos n).1), ([(g.N + n, 1)], (g.pos n).2)]

/-- Evaluation of one sparse row against a solution vector. -/
def rowEval (entries : List (ℕ × ℚ)) (v : ℕ → ℚ) : ℚ :=
  (entries.map (fun e => e.2 * v e.1)).sum

/-- Squared Euclidean distance. -/
def sqDist (p q : ℚ × ℚ) : ℚ := (p.1 - q.1) ^ 2 + (p.2 - q.2) ^ 2

/-- Closest point to p on the segment from a to b (parameter clamped to
[0, 1]; a itself when the segment is degenerate). -/
def closestOnSeg (a b p : ℚ × ℚ) : ℚ × ℚ :=
  let d1 := b.1 - a.1
  let d2 := b.2 - a.2
  let t := ((p.1 - a.1) * d1 + (p.2 - a.2) * d2) / (d1 ^ 2 + d2 ^ 2)
  let tc := max 0 (min 1 t)
  (a.1 + tc * d1, a.2 + tc * d2)

/-- Modelled from the spec: front.Curve.point_to_f followed by curve
evaluation is not under src/ (front.py is external).  The spec: boundary
nodes "are re-projected onto the fitted Bezier boundary curve (by
closest-parameter search)"; the curve object is built from sampled
points of the Bezier edges (gen_bezier_curve, lines 590-592) and is a
closed polyline through those samples.  The projection returns the
closest candidate over all segments, keeping the earlier one at ties. -/
def projectPolyline (pts : List (ℚ × ℚ)) (p : ℚ × ℚ) : ℚ × ℚ :=
  match (List.range pts.length).map (fun i =>
      closestOnSeg (pts.getD i (0, 0)) (pts.getD ((i + 1) % pts.length) (0, 0)) p) with
  | [] => p
  | c :: rest =>
    rest.foldl (fun best cand => if sqDist cand p < sqDist best p then cand else best) c

/-- The post-solve update of one node (lines 771-780): its position is
read from the solution vector (x part at n, y part at N+n), and nodes
with gen_j >= 0 are re-projected onto the sampled boundary curve. -/
def smoothUpdatePos (curvePts : List (ℚ × ℚ)) (g : SmoothGrid) (v : ℕ → ℚ) (n : ℕ) : ℚ × ℚ :=
  if 0 ≤ g.gen_j n then projectPolyline curvePts (v n, v (g.N + n))
  else (v n, v (g.N + n))

/-- The neighbor-count assertions for sliding (non-rigid) boundary nodes
(lines 715-725): neighbors with gen_j >= 0 are boundary neighbors, the
others interior; exactly two boundary neighbors and one interior
neighbor are asserted before the system is assembled and solved.  The
classified neighbor lists are returned; none models the assertion
failure. -/
def slideNeighborData (g : SmoothGrid) : List ℕ → Option (List (ℕ × List ℕ × List ℕ))
  | [] => some []
  | n :: rest =>
    if g.is_boundary_node n then
      if g.rigid n then slideNeighborData g rest
      else
        let bn := (g.node_to_nodes n).filter (fun m => decide (0 ≤ g.gen_j m))
        let inn := (g.node_to_nodes n).filter (fun m => decide (g.gen_j m < 0))
        if bn.length = 2 ∧ inn.length = 1 then
          (slideNeighborData g rest).map (fun l => (n, bn, inn) :: l)
        else none
    else slideNeighborData g rest

/-- Witness grid for C5: one rigid boundary node 0 at the origin, which
is a vertex of the sampled boundary polyline. -/
def c5Grid : SmoothGrid where
  N := 4
  nodes := [0]
  pos := fun _ => (0, 0)
  rigid := fun _ => true
  is_boundary_node := fun _ => true
  gen_j := fun _ => 0
  node_to_nodes := fun _ => []


/-! ## Float model of node_discretization, claim C7

FloatQ is an IEEE-style extension of the exact rationals with the two
infinities and a not-a-number element.  It models float64 arithmetic
without overflow or rounding: operations on finite values are exact, and
the special values propagate as in IEEE 754 (numpy semantics, where a
nonzero value divided by zero gives a signed infinity with a warning and
0/0 gives nan).  Coordinate products and sums in node_discretization are
computed on finite inputs and stay finite in this model; the only
sources of non-finite values are the divisions by triangle areas and by
the total fan area, which is what the finiteness assertion of line 155
is about. -/

/-- Float values: finite (exact) rationals, infinities, not-a-number. -/
inductive FloatQ where
  | val (q : ℚ)
  | posInf
  | negInf
  | nan
deriving DecidableEq, Repr

/-- np.isfinite. -/
def FloatQ.isFinite : FloatQ → Bool
  | .val _ => true
  | _ => false

/-- IEEE addition. -/
def FloatQ.add : FloatQ → FloatQ → FloatQ
  | .val a, .val b => .val (a + b)
  | .nan, _ => .nan
  | _, .nan => .nan
  | .posInf, .negInf => .nan
  | .negInf, .posInf => .nan
  | .posInf, _ => .posInf
  | _, .posInf => .posInf
  | .negInf, _ => .negInf
  | _, .negInf => .negInf

/-- IEEE negation. -/
def FloatQ.neg : FloatQ → FloatQ
  | .val a => .val (-a)
  | .posInf => .negInf
  | .negInf => .posInf
  | .nan => .nan

/-- IEEE multiplication; infinity times zero is nan. -/
def FloatQ.mul : FloatQ → FloatQ → FloatQ
  | .val a, .val b => .val (a * b)
  | .nan, _ => .nan
  | _, .nan => .nan
  | .posInf, .posInf => .posInf
  | .posInf, .negInf => .negInf
  | .negInf, .posInf => .negInf
  | .negInf, .negInf => .posInf
  | .posInf, .val b => if 0 < b then .posInf else if b < 0 then .negInf else .nan
  | .val a, .posInf => if 0 < a then .posInf else if a < 0 then .negInf else .nan
  | .negInf, .val b => if 0 < b then .negInf else if b < 0 then .posInf else .nan
  | .val a, .negInf => if 0 < a then .negInf else if a < 0 then .posInf else .nan

/-- IEEE division; finite/0 is a signed infinity (+0 denominator, the
exact computations here produce unsigned zeros) and 0/0 is nan. -/
def FloatQ.div : FloatQ → FloatQ → FloatQ
  | .val a, .val b =>
    if b = 0 then (if 0 < a then .posInf else if a < 0 then .negInf else .nan)
    else .val (a / b)
  | .nan, _ => .nan
  | _, .nan => .nan
  | .val _, .posInf => .val 0
  | .val _, .negInf => .val 0
  | .posInf, .val b => if 0 ≤ b then .posInf else .negInf
  | .negInf, .val b => if 0 ≤ b then .negInf else .posInf
  | .posInf, _ => .nan
  | .negInf, _ => .nan

/-- Neighbor coefficient for op='laplacian' in float semantics: the two
accumulated terms of lines 116 and 118, each a division -beta/(4*A[..])
multiplied by an exactly-computed finite geometric factor. -/
def lapAlphaF (X Y : ℕ → ℚ) (x0 y0 : ℚ) (A : ℕ → ℚ) (P M n : ℕ) : FloatQ :=
  FloatQ.add
    (if 0 < n ∨ P = M then
      FloatQ.mul (FloatQ.div (.val (-1)) (.val (4 * A ((n + M - 1) % M))))
        (.val ((Y ((n + P - 1) % P) - Y n) * (y0 - Y ((n + P - 1) % P)) +
          (X n - X ((n + P - 1) % P)) * (X ((n + P - 1) % P) - x0)))
     else .val 0)
    (if n < M then
      FloatQ.mul (FloatQ.div (.val (-1)) (.val (4 * A n)))
        (.val ((Y n - Y ((n + 1) % P)) * (Y ((n + 1) % P) - y0) +
          (X ((n + 1) % P) - X n) * (x0 - X ((n + 1) % P))))
     else .val 0)

/-- One term of the laplacian self coefficient (line 138) in float
semantics. -/
def lapAlpha0TermF (X Y : ℕ → ℚ) (A : ℕ → ℚ) (P e : ℕ) : FloatQ :=
  FloatQ.mul (FloatQ.div (.val (-1)) (.val (4 * A e)))
    (.val ((Y e - Y ((e + 1) % P)) ^ 2 + (X ((e + 1) % P) - X e) ^ 2))

/-- Neighbor coefficient for op='dx' in float semantics. -/
def dxAlphaF (Y : ℕ → ℚ) (y0 : ℚ) (AT : ℚ) (P M n : ℕ) : FloatQ :=
  FloatQ.add
    (if 0 < n ∨ P = M then
      FloatQ.mul (FloatQ.div (.val 1) (.val (2 * AT))) (.val (y0 - Y ((n + P - 1) % P)))
     else .val 0)
    (if n < M then
      FloatQ.mul (FloatQ.div (.val 1) (.val (2 * AT))) (.val (Y ((n + 1) % P) - y0))
     else .val 0)

/-- Neighbor coefficient for op='dy' in float semantics. -/
def dyAlphaF (X : ℕ → ℚ) (x0 : ℚ) (AT : ℚ) (P M n : ℕ) : FloatQ :=
  FloatQ.add
    (if 0 < n ∨ P = M then
      FloatQ.mul (FloatQ.div (.val 1) (.val (2 * AT))) (.val (X ((n + P - 1) % P) - x0))
     else .val 0)
    (if n < M then
      FloatQ.mul (FloatQ.div (.val 1) (.val (2 * AT))) (.val (x0 - X ((n + 1) % P)))
     else .val 0)

/-- Per-operator dispatch of the neighbor coefficient (the per-operator
branches of lines 114-128) in float semantics. -/
def alphaFOf (X Y : ℕ → ℚ) (x0 y0 : ℚ) (A : ℕ → ℚ) (AT : ℚ) (P M : ℕ)
    (op : DiffOp) (n : ℕ) : FloatQ :=
  match op with
  | .laplacian => lapAlphaF X Y x0 y0 A P M n
  | .dx => dxAlphaF Y y0 AT P M n
  | .dy => dyAlphaF X x0 AT P M n

/-- Per-operator dispatch of one self-coefficient term (the per-operator
branches of lines 137-142) in float semantics. -/
def alpha0FTermOf (X Y : ℕ → ℚ) (A : ℕ → ℚ) (AT : ℚ) (P : ℕ)
    (op : DiffOp) (e : ℕ) : FloatQ :=
  match op with
  | .laplacian => lapAlpha0TermF X Y A P e
  | .dx => FloatQ.mul (FloatQ.div (.val 1) (.val (2 * AT))) (.val (Y e - Y ((e + 1) % P)))
  | .dy => FloatQ.mul (FloatQ.div (.val 1) (.val (2 * AT))) (.val (X ((e + 1) % P) - X e))

/-- node_discretization in float semantics, with the assertion of line
155: if np.isfinite(alpha0) fails the function raises (none); otherwise
the row is returned.  The roll loop and the M = 0 crash are as in the
exact model; the geometric inputs A and AT are exact, per the no-overflow
float model. -/
def node_discretizationF (g : DiscGrid) (n0 : ℕ) (op : DiffOp) :
    Option (List ℕ × List FloatQ × FloatQ) :=
  let N0 := g.angle_sort_adjacent_nodes n0
  let P := N0.length
  let isB := g.is_boundary_node n0
  let M := P - (if isB then 1 else 0)
  let rolled := if isB then rollToBoundary g (P + 1) N0 else some N0
  match rolled with
  | none => none
  | some N =>
    if M = 0 ∧ 0 < P then none
    else
      let X : ℕ → ℚ := fun i => g.x (N.getD i 0)
      let Y : ℕ → ℚ := fun i => g.y (N.getD i 0)
      let x0 := g.x n0
      let y0 := g.y n0
      let A : ℕ → ℚ := fun m =>
        signed_area (x0, y0) (X m, Y m) (X ((m + 1) % P), Y ((m + 1) % P))
      let AT : ℚ := ((List.range M).map A).sum
      let alphas : List FloatQ :=
        (List.range P).map (alphaFOf X Y x0 y0 A AT P M op)
      let alpha0 : FloatQ :=
        ((List.range M).map (alpha0FTermOf X Y A AT P op)).foldl FloatQ.add (.val 0)
      let gamma : FloatQ :=
        if op = .laplacian ∧ M < P then
          FloatQ.mul (FloatQ.div (.val 3) (.val AT)) (.val 0)
        else .val 0
      if alpha0.isFinite then some (n0 :: N, alpha0 :: alphas, FloatQ.neg gamma)
      else none


/-! ## adjust_by_psi_phi (quad_laplacian.py lines 917-998), claim C8 -/

/-- One generating-grid node as read by adjust_by_psi_phi: the deleted
flag, the per-axis fixed flags (nodes[src+'_fixed']), the src logical
coordinates and the physical position. -/
structure GenNode where
  deleted : Bool
  fixedI : Bool
  fixedJ : Bool
  srcIJ : ℚ × ℚ
  pos : ℚ × ℚ
deriving DecidableEq, Repr

/-- The intermediate grid (g_int) data read by adjust_by_psi_phi:
node positions and the solved psi and phi fields. -/
structure TriGrid where
  pos : List (ℚ × ℚ)
  psi : List ℚ
  phi : List ℚ
deriving DecidableEq, Repr

/-- The target grid g: node ids, per-node logical coordinates
(nodes['ij']) and positions (nodes['x'], parallel to ids). -/
structure TGrid where
  ids : List ℕ
  ij : ℕ → ℚ × ℚ
  pos : List (ℚ × ℚ)

/-- Modelled from the spec: unstructured_grid.select_nodes_nearest is
not under src/; "locate their nearest intermediate-grid node".  First
index of minimal squared distance. -/
def select_nodes_nearest (pts : List (ℚ × ℚ)) (q : ℚ × ℚ) : ℕ :=
  argminIdx (pts.map (fun p => sqDist p q))

/-- Insertion of a rational into a sorted list. -/
def insertSorted (q : ℚ) : List ℚ → List ℚ
  | [] => [q]
  | x :: xs => if q ≤ x then q :: x :: xs else x :: insertSorted q xs

/-- np.sort (ascending) on rationals, by insertion sort. -/
def sortQ (l : List ℚ) : List ℚ := l.foldr insertSorted []

/-- Mean of the field values over the positions where coords equals k. -/
def groupMean (coords fields : List ℚ) (k : ℚ) : ℚ :=
  let members := (List.range coords.length).filter (fun i => decide (coords.getD i 0 = k))
  (members.map (fun i => fields.getD i 0)).sum / members.length

/-- Modelled from the spec: utils.enumerate_groups is not under src/;
the source comments that it "will put k in order", grouping equal
coordinate values; the mapping k to mean(field over the group) of lines
953-956. -/
def enumerate_groups_means (coords fields : List ℚ) : List (ℚ × ℚ) :=
  (sortQ coords.dedup).map (fun k => (k, groupMean coords fields k))

/-- np.interp on a table of (x, f) pairs with ascending x: clamped at
both ends, linear in between. -/
def interp1 : ℚ → List (ℚ × ℚ) → ℚ
  | _, [] => 0
  | _, [(_, f)] => f
  | xq, (x1, f1) :: (x2, f2) :: rest =>
    if xq ≤ x1 then f1
    else if xq ≤ x2 then f1 + (f2 - f1) * (xq - x1) / (x2 - x1)
    else interp1 xq ((x2, f2) :: rest)

/-- All logical values of the target grid pooled over both coordinates
(g.nodes['ij'].min() / .max() are over the whole 2-column array). -/
def ijValues (g : TGrid) : List ℚ :=
  (g.ids.map (fun n => (g.ij n).1)) ++ (g.ids.map (fun n => (g.ij n).2))

/-- All src logical values of the generating grid pooled over both
coordinates. -/
def genSrcVals (gens : List GenNode) : List ℚ :=
  (gens.map (fun gn => gn.srcIJ.1)) ++ (gens.map (fun gn => gn.srcIJ.2))

/-- adjust_by_psi_phi as a function of the data it reads.  interpXY
abstracts utils.LinearNDExtrapolator (not under src/): per the spec, a
deterministic scattered-data interpolator built from the intermediate
grid's (psi,phi) to (x,y) point cloud; idempotence holds for every such
interpolator, so it is a parameter.  The two np.allclose assertions of
lines 937-938 compare the pooled min and max of the target grid's ij
against the generating grid's src field; the per-axis fixed subset is
mapped through the nearest intermediate node to psi (axis i) or phi
(axis j), grouped and averaged by logical value, the field column is
force-sorted (ascending for psi, descending for phi, lines 965-966), and
np.interp plus the scattered inversion produce the new positions.  The
target grid's positions are never read. -/
def adjust_by_psi_phi (interpXY : List ((ℚ × ℚ) × (ℚ × ℚ)) → (ℚ × ℚ) → (ℚ × ℚ))
    (gens : List GenNode) (tri : TriGrid) (g : TGrid) : Option (List (ℚ × ℚ)) :=
  if allcloseQ (listMinQ (ijValues g)) (listMinQ (genSrcVals gens))
      && allcloseQ (listMaxQ (ijValues g)) (listMaxQ (genSrcVals gens)) then
    let validI := gens.filter (fun gn => !gn.deleted && gn.fixedI)
    let nearI := validI.map (fun gn => select_nodes_nearest tri.pos gn.pos)
    let i_psi := enumerate_groups_means (validI.map (fun gn => gn.srcIJ.1))
      (nearI.map (fun t => tri.psi.getD t 0))
    let validJ := gens.filter (fun gn => !gn.deleted && gn.fixedJ)
    let nearJ := validJ.map (fun gn => select_nodes_nearest tri.pos gn.pos)
    let j_phi := enumerate_groups_means (validJ.map (fun gn => gn.srcIJ.2))
      (nearJ.map (fun t => tri.phi.getD t 0))
    let i_psi2 := (i_psi.map Prod.fst).zip (sortQ (i_psi.map Prod.snd))
    let j_phi2 := (j_phi.map Prod.fst).zip ((sortQ (j_phi.map Prod.snd)).reverse)
    let cloud := (tri.psi.zip tri.phi).zip tri.pos
    some (g.ids.map (fun n =>
      interpXY cloud (interp1 (g.ij n).1 i_psi2, interp1 (g.ij n).2 j_phi2)))
  else none

/-- The update=True branch: overwrite the target grid node positions. -/
def withPos (g : TGrid) (xy : List (ℚ × ℚ)) : TGrid :=
  { g with pos := xy }

/-! ## QuadGen.__init__ aliasing structure (quad_laplacian.py lines
214-254), claim C9

The caller's generating grid is an object on a heap of grids, modelled
as a list of grid contents indexed by position.  gen.copy() allocates a
new entry with the caller's content (modelled from the spec:
unstructured_grid.copy is not under src/; the spec says the grid is
"copied defensively before any mutation"); every subsequent stage
operates on the copy or on freshly allocated grids, never on the
caller's index.  The stage bodies are arbitrary content transformers:
the theorem holds for every choice, which is exactly the claim that no
stage can reach the caller's object. -/

/-- The heap effect of QuadGen.__init__: allocate the copy (index r1),
mutate it in place through the ij/IJ preparation stages and add_bezier
(prep), allocate the intermediate grid from it (mkInt, index r2), mutate
it by smoothing (smooth), allocate the final grid from the copy and the
intermediate grid (mkFinal, index r3), and mutate it by the psi/phi
adjustment reading the copy and the intermediate grid (adjust).  Returns
the final heap and the indices of the three grids owned by the run. -/
def quadGenInitStore {α : Type} (store : List α) (r0 : ℕ) (d : α)
    (prep : α → α) (mkInt : α → α) (smooth : α → α)
    (mkFinal : α → α → α) (adjust : α → α → α → α) : List α × ℕ × ℕ × ℕ :=
  let r1 := store.length
  let store1 := store ++ [store.getD r0 d]
  let store2 := store1.set r1 (prep (store1.getD r1 d))
  let r2 := store2.length
  let store3 := store2 ++ [mkInt (store2.getD r1 d)]
  let store4 := store3.set r2 (smooth (store3.getD r2 d))
  let r3 := store4.length
  let store5 := store4 ++ [mkFinal (store4.getD r1 d) (store4.getD r2 d)]
  let store6 := store5.set r3 (adjust (store5.getD r1 d) (store5.getD r2 d) (store5.getD r3 d))
  (store6, r1, r2, r3)

/-! ## Theorems -/

theorem dictLast_eq_none_of_not_mem {α : Type} (entries : List (ℕ × α)) (n : ℕ)
    (h : n ∉ entries.map Prod.fst) : dictLast entries n = none := by
  induction entries with
  | nil => rfl
  | cons e rest ih =>
    obtain ⟨k, v⟩ := e
    simp only [List.map_cons, List.mem_cons] at h
    push_neg at h
    simp only [dictLast, ih h.2]
    simp [Ne.symm h.1]

theorem dokOnes_of_nodup (entries : List (ℕ × ℚ))
    (h : (entries.map Prod.fst).Nodup) : dokOnes entries = (entries.map Prod.snd).sum := by
  induction entries with
  | nil => rfl
  | cons e rest ih =>
    obtain ⟨k, v⟩ := e
    simp only [List.map_cons, List.nodup_cons] at h
    obtain ⟨hk, hrest⟩ := h
    have hdedup : ((k, v) :: rest).map Prod.fst = (((k, v) :: rest).map Prod.fst).dedup := by
      simp only [List.map_cons]
      exact (List.dedup_eq_self.mpr (List.nodup_cons.mpr ⟨hk, hrest⟩)).symm
    have hself : dictLast ((k, v) :: rest) k = some v := by
      simp [dictLast, dictLast_eq_none_of_not_mem rest k hk]
    have hother : ∀ m ∈ rest.map Prod.fst,
        (dictLast ((k, v) :: rest) m).getD 0 = (dictLast rest m).getD 0 := by
      intro m hm
      have hkm : k ≠ m := fun hEq => hk (hEq ▸ hm)
      simp only [dictLast]
      cases hfind : dictLast rest m with
      | some w => rfl
      | none => simp [hkm]
    unfold dokOnes
    rw [← hdedup]
    simp only [List.map_cons, List.sum_cons, hself]
    rw [List.map_congr_left hother]
    unfold dokOnes at ih
    rw [List.dedup_eq_self.mpr hrest] at ih
    rw [ih hrest]
    simp

theorem list_range_map_sum {M : Type} [AddCommMonoid M] (f : ℕ → M) (n : ℕ) :
    ((List.range n).map f).sum = ∑ i in Finset.range n, f i := by
  induction n with
  | zero => simp
  | succ n ih =>
    rw [List.range_succ, List.map_append, List.sum_append, Finset.sum_range_succ, ih]
    simp

theorem dokOnes_zip (ns : List ℕ) (vs : List ℚ) (hlen : ns.length = vs.length)
    (hnd : ns.Nodup) : dokOnes (ns.zip vs) = vs.sum := by
  have h1 : (ns.zip vs).map Prod.fst = ns := List.map_fst_zip ns vs (le_of_eq hlen)
  have h2 : (ns.zip vs).map Prod.snd = vs := List.map_snd_zip ns vs (le_of_eq hlen.symm)
  rw [dokOnes_of_nodup _ (by rw [h1]; exact hnd), h2]

theorem mod_shift_left {P n : ℕ} (hP : 0 < P) (hn : n < P) :
    ((n + P - 1) % P + 1) % P = n := by
  have h1 : n + P - 1 + 1 = n + P := by omega
  calc ((n + P - 1) % P + 1) % P = (n + P - 1 + 1) % P := Nat.mod_add_mod _ _ _
    _ = (n + P) % P := by rw [h1]
    _ = n := by rw [Nat.add_mod_right, Nat.mod_eq_of_lt hn]

theorem mod_shift_right {P e : ℕ} (hP : 0 < P) (he : e < P) :
    ((e + 1) % P + P - 1) % P = e := by
  have h2 : (e + 1) % P + P - 1 = (e + 1) % P + (P - 1) := by omega
  rw [h2]
  calc ((e + 1) % P + (P - 1)) % P = (e + 1 + (P - 1)) % P := Nat.mod_add_mod _ _ _
    _ = (e + P) % P := by congr 1; omega
    _ = e := by rw [Nat.add_mod_right, Nat.mod_eq_of_lt he]

theorem sum_range_shift_pred (P : ℕ) (F : ℕ → ℚ) :
    ∑ n in Finset.range P, F ((n + P - 1) % P) = ∑ e in Finset.range P, F e := by
  rcases Nat.eq_zero_or_pos P with hP | hP
  · subst hP; simp
  refine Finset.sum_nbij' (fun n => (n + P - 1) % P) (fun e => (e + 1) % P) ?_ ?_ ?_ ?_ ?_
  · intro a _; exact Finset.mem_range.mpr (Nat.mod_lt _ hP)
  · intro a _; exact Finset.mem_range.mpr (Nat.mod_lt _ hP)
  · intro a ha; exact mod_shift_left hP (Finset.mem_range.mp ha)
  · intro a ha; exact mod_shift_right hP (Finset.mem_range.mp ha)
  · intro a _; rfl

theorem lapAlpha_interior (X Y : ℕ → ℚ) (x0 y0 : ℚ) (A : ℕ → ℚ) (P n : ℕ)
    (hP : 0 < P) (hn : n < P) :
    lapAlpha X Y x0 y0 A P P n
      = lapT1 X Y x0 y0 A P ((n + P - 1) % P) + lapT2 X Y x0 y0 A P n := by
  unfold lapAlpha lapT1 lapT2
  rw [if_pos (Or.inr rfl), if_pos hn, mod_shift_left hP hn]

theorem lap_fan_cancel (X Y : ℕ → ℚ) (x0 y0 : ℚ) (A : ℕ → ℚ) (P e : ℕ) :
    lapAlpha0Term X Y A P e + (lapT1 X Y x0 y0 A P e + lapT2 X Y x0 y0 A P e) = 0 := by
  unfold lapAlpha0Term lapT1 lapT2
  ring

/-- The self coefficient plus the sum of neighbor coefficients of an
interior-node laplacian row vanishes, for every assignment of triangle
areas: the contributions of each triangle fan cancel exactly. -/
theorem lap_row_sum_zero (X Y : ℕ → ℚ) (x0 y0 : ℚ) (A : ℕ → ℚ) (P : ℕ) :
    ((List.range P).map (fun e => lapAlpha0Term X Y A P e)).sum
      + ((List.range P).map (fun n => lapAlpha X Y x0 y0 A P P n)).sum = 0 := by
  rcases Nat.eq_zero_or_pos P with hP | hP
  · subst hP; simp
  rw [list_range_map_sum, list_range_map_sum]
  have hdecomp : ∀ n ∈ Finset.range P,
      lapAlpha X Y x0 y0 A P P n
        = lapT1 X Y x0 y0 A P ((n + P - 1) % P) + lapT2 X Y x0 y0 A P n := fun n hn =>
    lapAlpha_interior X Y x0 y0 A P n hP (Finset.mem_range.mp hn)
  rw [Finset.sum_congr rfl hdecomp, Finset.sum_add_distrib,
    sum_range_shift_pred P (fun e => lapT1 X Y x0 y0 A P e),
    ← Finset.sum_add_distrib, ← Finset.sum_add_distrib]
  exact Finset.sum_eq_zero fun e _ => lap_fan_cancel X Y x0 y0 A P e

/-- C1: for an interior node (is_boundary_node false, full cyclic ring)
the laplacian row produced by node_discretization has coefficients
(self coefficient alpha0 plus all neighbor coefficients) summing to zero,
so the matrix assembled by construct_matrix with no Dirichlet nodes and no
tangential groups, applied to an all-ones vector, is exactly zero at that
node, in exact rational arithmetic. -/
theorem construct_matrix_interior_row_ones_zero (g : DiscGrid) (n0 : ℕ)
    (hb : g.is_boundary_node n0 = false)
    (hnd : (n0 :: g.angle_sort_adjacent_nodes n0).Nodup) :
    (construct_matrix_row g .laplacian [] [] n0).map row_apply_ones = some 0 := by
  have hrow : construct_matrix_row g .laplacian [] [] n0
      = node_discretization g n0 .laplacian := rfl
  rw [hrow, node_discretization.eq_def]
  simp only [hb, Bool.false_eq_true, if_false, Nat.sub_zero]
  rw [if_neg (by omega : ¬((g.angle_sort_adjacent_nodes n0).length = 0
    ∧ 0 < (g.angle_sort_adjacent_nodes n0).length))]
  simp only [Option.map_some', Option.some.injEq]
  rw [row_apply_ones, dokOnes_zip]
  · rw [List.sum_cons]
    exact lap_row_sum_zero _ _ _ _ _ _
  · simp
  · exact hnd

/-- Witness for C1 at the concrete four-neighbor interior node. -/
theorem construct_matrix_interior_row_ones_zero_witness :
    c1Grid.is_boundary_node 0 = false
      ∧ (0 :: c1Grid.angle_sort_adjacent_nodes 0).Nodup
      ∧ (construct_matrix_row c1Grid .laplacian [] [] 0).map row_apply_ones = some 0 :=
  ⟨rfl, by decide, construct_matrix_interior_row_ones_zero c1Grid 0 rfl (by decide)⟩

/-- C10: in construct_matrix a node that is both a Dirichlet key and a
member of a zero-tangential group receives the Dirichlet identity row
(coefficient 1 on itself, rhs the given value), not the group-equality
row: the Dirichlet branch precedes the tangential branch for every node,
a group leader included. -/
theorem dirichlet_precedes_tangential (g : DiscGrid) (op : DiffOp)
    (dirichlet_nodes : List (ℕ × ℚ)) (ztg : List (List ℕ)) (n : ℕ) (v : ℚ)
    (hd : dictLast dirichlet_nodes n = some v)
    (grp : List ℕ) (hg : grp ∈ ztg) (hn : n ∈ grp) :
    construct_matrix_row g op dirichlet_nodes ztg n = some ([n], [1], v) := by
  unfold construct_matrix_row
  rw [hd]

/-- Witness for C10: node 3 is the leader of group [3, 5] and also a
Dirichlet node with value 7; it gets the identity row. -/
theorem dirichlet_precedes_tangential_witness :
    dictLast [(3, (7 : ℚ))] 3 = some 7 ∧ [3, 5] ∈ [[3, 5]] ∧ 3 ∈ [3, 5]
      ∧ construct_matrix_row c1Grid .laplacian [(3, 7)] [[3, 5]] 3 = some ([3], [1], 7) :=
  ⟨by decide, by decide, by decide,
    dirichlet_precedes_tangential c1Grid .laplacian [(3, 7)] [[3, 5]] 3 7 (by decide)
      [3, 5] (by decide) (by decide)⟩

theorem roundHalfEven_intCast (z : ℤ) : roundHalfEven (z : ℚ) = z := by
  unfold roundHalfEven
  rw [Int.floor_intCast]
  simp

theorem sum_range_getD (l : List ℤ) :
    ∑ k in Finset.range l.length, l.getD k 0 = l.sum := by
  induction l with
  | nil => simp
  | cons a t ih =>
    rw [List.length_cons, Finset.sum_range_succ']
    simp only [List.getD_cons_succ, List.getD_cons_zero, List.sum_cons]
    rw [ih, add_comm]

/-- C2 counterexample: with min_steps = 2 and nom_res = 1, a rectangle
cycle whose two constant-i sides have zero logical delta produces steps
[4, 0, -4, 0]; the zero-delta segments receive step 0, of magnitude
below min_steps, refuting the claim that every step magnitude is at
least min_steps. -/
theorem coalesce_steps_counterexample :
    ¬ ∀ s ∈ coalesceSteps 2 1
        [⟨0, 1, 4, 1⟩, ⟨1, 2, 2, 0⟩, ⟨2, 3, 4, -1⟩, ⟨3, 0, 2, 0⟩],
        2 ≤ s.natAbs := by decide

/-- C2 amended: for each axis and cycle, provided the total step
magnitude is nonzero (the source divides by it), the corrected steps sum
to exactly zero around the cycle, and every segment with nonzero logical
delta receives a raw step of magnitude at least min_steps.  (Zero-delta
segments receive step 0, and the rounding-error correction can further
reduce magnitudes below min_steps, so the bound holds for the raw steps
only.) -/
theorem coalesce_steps_amended (min_steps : ℕ) (nom_res : ℚ) (segs : List CycleSeg)
    (htot : ((segs.map (stepOfSeg min_steps nom_res)).map Int.natAbs).sum ≠ 0) :
    (coalesceSteps min_steps nom_res segs).sum = 0
      ∧ ∀ s ∈ segs, s.dij_ab ≠ 0 → min_steps ≤ (stepOfSeg min_steps nom_res s).natAbs := by
  constructor
  · unfold coalesceSteps
    rw [list_range_map_sum, Finset.sum_sub_distrib, sum_range_getD,
      Finset.sum_range_sub (fun k => errDist (segs.map (stepOfSeg min_steps nom_res)).sum
        ((segs.map (stepOfSeg min_steps nom_res)).map Int.natAbs)
        (((segs.map (stepOfSeg min_steps nom_res)).map Int.natAbs).sum) k)]
    have hD0 : errDist (segs.map (stepOfSeg min_steps nom_res)).sum
        ((segs.map (stepOfSeg min_steps nom_res)).map Int.natAbs)
        (((segs.map (stepOfSeg min_steps nom_res)).map Int.natAbs).sum) 0 = 0 := by
      have h0 := roundHalfEven_intCast (0 : ℤ)
      rw [Int.cast_zero] at h0
      simpa [errDist] using h0
    have hDn : errDist (segs.map (stepOfSeg min_steps nom_res)).sum
        ((segs.map (stepOfSeg min_steps nom_res)).map Int.natAbs)
        (((segs.map (stepOfSeg min_steps nom_res)).map Int.natAbs).sum)
        (segs.map (stepOfSeg min_steps nom_res)).length = (segs.map (stepOfSeg min_steps nom_res)).sum := by
      unfold errDist
      have hlen : (segs.map (stepOfSeg min_steps nom_res)).length
          = ((segs.map (stepOfSeg min_steps nom_res)).map Int.natAbs).length := by
        simp
      rw [hlen, List.take_length]
      have htQ : ((((segs.map (stepOfSeg min_steps nom_res)).map Int.natAbs).sum : ℕ) : ℚ) ≠ 0 :=
        Nat.cast_ne_zero.mpr htot
      rw [mul_div_assoc, div_self htQ, mul_one, roundHalfEven_intCast]
    rw [hD0, hDn]
    ring
  · intro s hs hdij
    unfold stepOfSeg
    rw [if_neg hdij]
    have hfl : (min_steps : ℤ) ≤ ⌊max (min_steps : ℚ) (s.d_ab / nom_res)⌋ := by
      apply Int.le_floor.mpr
      push_cast
      exact le_max_left _ _
    by_cases hpos : 0 < s.dij_ab
    · rw [if_pos hpos, one_mul]
      omega
    · rw [if_neg hpos, neg_one_mul]
      omega

/-- Witness for the amended C2 on a two-segment cycle with raw steps
+4 and -6: the corrected steps sum to zero and each nonzero-delta raw
step has magnitude at least min_steps = 2. -/
theorem coalesce_steps_amended_witness :
    ((([⟨0, 1, 4, 1⟩, ⟨1, 2, 6, -1⟩] : List CycleSeg).map (stepOfSeg 2 1)).map Int.natAbs).sum ≠ 0
      ∧ ((coalesceSteps 2 1 [⟨0, 1, 4, 1⟩, ⟨1, 2, 6, -1⟩]).sum = 0
        ∧ ∀ s ∈ ([⟨0, 1, 4, 1⟩, ⟨1, 2, 6, -1⟩] : List CycleSeg), s.dij_ab ≠ 0 →
            2 ≤ (stepOfSeg 2 1 s).natAbs) :=
  ⟨by decide, coalesce_steps_amended 2 1 [⟨0, 1, 4, 1⟩, ⟨1, 2, 6, -1⟩] (by decide)⟩

theorem cumsum2_headD (s : ℚ × ℚ) (ds : List (ℚ × ℚ)) :
    (cumsum2 s ds).headD (0, 0) = s := by
  cases ds <;> rfl

theorem cumsum2_getLastD (ds : List (ℚ × ℚ)) :
    ∀ (s z : ℚ × ℚ), (cumsum2 s ds).getLastD z
      = (s.1 + (ds.map Prod.fst).sum, s.2 + (ds.map Prod.snd).sum) := by
  induction ds with
  | nil => intro s z; simp [cumsum2]
  | cons d ds ih =>
    intro s z
    rw [cumsum2, List.getLastD_cons, ih]
    simp [add_assoc]

/-- C3: if the oriented logical deltas around a generating cell do not
close the loop within the np.allclose tolerance (the accumulated end
position against the start), create_intermediate_grid fails fatally at
the assertion before building any patch. -/
theorem create_intermediate_nonclosing_fatal (c : ℤ) (es : List GenEdgeRef) (ij0 : ℚ × ℚ)
    (h : allclose2 ij0 (ij0.1 + ((orientedDijs c es).map Prod.fst).sum,
          ij0.2 + ((orientedDijs c es).map Prod.snd).sum) = false) :
    createIntermediatePatch c es ij0 = none := by
  unfold createIntermediatePatch
  simp only [cumsum2_headD, cumsum2_getLastD, h, Bool.false_eq_true, if_false]

/-- Witness for C3: three edges whose oriented deltas sum to (1, 0)
(the degenerate-input scenario of the spec) are rejected. -/
theorem create_intermediate_nonclosing_fatal_witness :
    allclose2 (0, 0) ((0 : ℚ) + ((orientedDijs 5 [⟨(1, 0), 5⟩, ⟨(0, 1), 5⟩, ⟨(0, 1), 7⟩]).map Prod.fst).sum,
        (0 : ℚ) + ((orientedDijs 5 [⟨(1, 0), 5⟩, ⟨(0, 1), 5⟩, ⟨(0, 1), 7⟩]).map Prod.snd).sum) = false
      ∧ createIntermediatePatch 5 [⟨(1, 0), 5⟩, ⟨(0, 1), 5⟩, ⟨(0, 1), 7⟩] (0, 0) = none :=
  ⟨by decide, create_intermediate_nonclosing_fatal 5 [⟨(1, 0), 5⟩, ⟨(0, 1), 5⟩, ⟨(0, 1), 7⟩] (0, 0) (by decide)⟩

theorem argminIdx_lt_length (l : List ℚ) (h : l ≠ []) : argminIdx l < l.length := by
  induction l with
  | nil => exact absurd rfl h
  | cons x xs ih =>
    cases xs with
    | nil => simp [argminIdx]
    | cons y rest =>
      simp only [argminIdx]
      split
      · simp
      · have := ih (by simp)
        simp only [List.length_cons] at this ⊢
        omega

theorem argmaxIdx_lt_length (l : List ℚ) (h : l ≠ []) : argmaxIdx l < l.length := by
  induction l with
  | nil => exact absurd rfl h
  | cons x xs ih =>
    cases xs with
    | nil => simp [argmaxIdx]
    | cons y rest =>
      simp only [argmaxIdx]
      split
      · simp
      · have := ih (by simp)
        simp only [List.length_cons] at this ⊢
        omega

theorem argminIdx_eq_of_strict (l : List ℚ) (a : ℕ) (ha : a < l.length)
    (h : ∀ m, m < l.length → m ≠ a → l.getD a 0 < l.getD m 0) : argminIdx l = a := by
  induction l generalizing a with
  | nil => simp at ha
  | cons x xs ih =>
    cases xs with
    | nil =>
      simp only [List.length_cons, List.length_nil] at ha
      simp only [argminIdx]
      omega
    | cons y rest =>
      simp only [argminIdx]
      cases a with
      | zero =>
        have hr : argminIdx (y :: rest) < (y :: rest).length :=
          argminIdx_lt_length _ (by simp)
        have hx : x < (y :: rest).getD (argminIdx (y :: rest)) 0 := by
          have := h (argminIdx (y :: rest) + 1)
            (by simpa using Nat.succ_lt_succ hr) (by simp)
          simpa using this
        rw [if_pos (le_of_lt hx)]
      | succ k =>
        have hk : k < (y :: rest).length := by simpa using ha
        have hlt : (y :: rest).getD k 0 < x := by
          have := h 0 (by simp) (by simp)
          simpa using this
        have hrec : argminIdx (y :: rest) = k := by
          apply ih k hk
          intro m hm hmk
          have := h (m + 1) (by simpa using Nat.succ_lt_succ hm) (by omega)
          simpa using this
        rw [hrec, if_neg (not_le.mpr hlt)]

theorem argmaxIdx_eq_of_strict (l : List ℚ) (a : ℕ) (ha : a < l.length)
    (h : ∀ m, m < l.length → m ≠ a → l.getD m 0 < l.getD a 0) : argmaxIdx l = a := by
  induction l generalizing a with
  | nil => simp at ha
  | cons x xs ih =>
    cases xs with
    | nil =>
      simp only [List.length_cons, List.length_nil] at ha
      simp only [argmaxIdx]
      omega
    | cons y rest =>
      simp only [argmaxIdx]
      cases a with
      | zero =>
        have hr : argmaxIdx (y :: rest) < (y :: rest).length :=
          argmaxIdx_lt_length _ (by simp)
        have hx : (y :: rest).getD (argmaxIdx (y :: rest)) 0 < x := by
          have := h (argmaxIdx (y :: rest) + 1)
            (by simpa using Nat.succ_lt_succ hr) (by simp)
          simpa using this
        rw [if_pos (le_of_lt hx)]
      | succ k =>
        have hk : k < (y :: rest).length := by simpa using ha
        have hlt : x < (y :: rest).getD k 0 := by
          have := h 0 (by simp) (by simp)
          simpa using this
        have hrec : argmaxIdx (y :: rest) = k := by
          apply ih k hk
          intro m hm hmk
          have := h (m + 1) (by simpa using Nat.succ_lt_succ hm) (by omega)
          simpa using this
        rw [hrec, if_neg (not_le.mpr hlt)]

/-- C4: after grouping the boundary cycle, the psi Dirichlet pins are -1
at the leader (first member) of the i-group whose recorded i value is the
strict minimum and +1 at the leader of the group with the strict maximum,
and the phi Dirichlet pin is +1 at the leader of the second j-group in
encounter order (index 1). -/
theorem calc_psi_phi_pin_placement (ij : ℕ → ℚ × ℚ) (bcycle : List ℕ) (a b : ℕ)
    (ha : a < (runGroups ij bcycle).ivals.length)
    (hmin : ∀ m, m < (runGroups ij bcycle).ivals.length → m ≠ a →
      (runGroups ij bcycle).ivals.getD a 0 < (runGroups ij bcycle).ivals.getD m 0)
    (hb : b < (runGroups ij bcycle).ivals.length)
    (hmax : ∀ m, m < (runGroups ij bcycle).ivals.length → m ≠ b →
      (runGroups ij bcycle).ivals.getD m 0 < (runGroups ij bcycle).ivals.getD b 0)
    (hlead : ((runGroups ij bcycle).igs.getD a []).headD 0
      ≠ ((runGroups ij bcycle).igs.getD b []).headD 0)
    (hj : 2 ≤ (runGroups ij bcycle).jgs.length) :
    ∃ idir jdir, calcPins (runGroups ij bcycle) = some (idir, jdir)
      ∧ dictLast idir (((runGroups ij bcycle).igs.getD a []).headD 0) = some (-1)
      ∧ dictLast idir (((runGroups ij bcycle).igs.getD b []).headD 0) = some 1
      ∧ jdir = [(((runGroups ij bcycle).jgs.getD 1 []).headD 0, 1)] := by
  have hne : (runGroups ij bcycle).ivals ≠ [] := by
    intro hcon
    rw [hcon] at ha
    simp at ha
  have hlow : argminIdx (runGroups ij bcycle).ivals = a :=
    argminIdx_eq_of_strict _ a ha hmin
  have hhigh : argmaxIdx (runGroups ij bcycle).ivals = b :=
    argmaxIdx_eq_of_strict _ b hb hmax
  refine ⟨[(((runGroups ij bcycle).igs.getD a []).headD 0, -1),
      (((runGroups ij bcycle).igs.getD b []).headD 0, 1)],
    [(((runGroups ij bcycle).jgs.getD 1 []).headD 0, 1)], ?_, ?_, ?_, rfl⟩
  · unfold calcPins
    rw [if_neg (by simpa [List.isEmpty_iff] using hne), if_neg (by omega), hlow, hhigh]
  · simp only [dictLast]
    rw [if_neg (Ne.symm hlead)]
    simp
  · simp [dictLast]

/-- Witness for C4 on the 2 by 2 logical square boundary: the groups are
igs = [[2,3,4],[6,7,0]] with recorded i values [2,0] and
jgs = [[0,1,2],[4,5,6]]; psi is pinned to -1 at node 6 (leader of the
minimal i-group), +1 at node 2 (leader of the maximal one), and phi to
+1 at node 4 (leader of the second j-group). -/
theorem calc_psi_phi_pin_placement_witness :
    (1 < (runGroups c4ij c4cycle).ivals.length
      ∧ (∀ m, m < (runGroups c4ij c4cycle).ivals.length → m ≠ 1 →
          (runGroups c4ij c4cycle).ivals.getD 1 0 < (runGroups c4ij c4cycle).ivals.getD m 0)
      ∧ (∀ m, m < (runGroups c4ij c4cycle).ivals.length → m ≠ 0 →
          (runGroups c4ij c4cycle).ivals.getD m 0 < (runGroups c4ij c4cycle).ivals.getD 0 0)
      ∧ ((runGroups c4ij c4cycle).igs.getD 1 []).headD 0
          ≠ ((runGroups c4ij c4cycle).igs.getD 0 []).headD 0
      ∧ 2 ≤ (runGroups c4ij c4cycle).jgs.length)
      ∧ ∃ idir jdir, calcPins (runGroups c4ij c4cycle) = some (idir, jdir)
        ∧ dictLast idir (((runGroups c4ij c4cycle).igs.getD 1 []).headD 0) = some (-1)
        ∧ dictLast idir (((runGroups c4ij c4cycle).igs.getD 0 []).headD 0) = some 1
        ∧ jdir = [(((runGroups c4ij c4cycle).jgs.getD 1 []).headD 0, 1)] :=
  ⟨⟨by decide, by decide, by decide, by decide, by decide⟩,
    calc_psi_phi_pin_placement c4ij c4cycle 1 0 (by decide) (by decide) (by decide)
      (by decide) (by decide) (by decide)⟩

theorem sqDist_nonneg (p q : ℚ × ℚ) : 0 ≤ sqDist p q :=
  add_nonneg (sq_nonneg _) (sq_nonneg _)

theorem sqDist_eq_zero (q p : ℚ × ℚ) (h : sqDist q p = 0) : q = p := by
  unfold sqDist at h
  have h1 : (q.1 - p.1) ^ 2 = 0 ∧ (q.2 - p.2) ^ 2 = 0 :=
    (add_eq_zero_iff_of_nonneg (sq_nonneg _) (sq_nonneg _)).mp h
  have e1 : q.1 = p.1 := by
    have := pow_eq_zero_iff (n := 2) (by omega) |>.mp h1.1
    linarith [this]
  have e2 : q.2 = p.2 := by
    have := pow_eq_zero_iff (n := 2) (by omega) |>.mp h1.2
    linarith [this]
  exact Prod.ext e1 e2

theorem closestOnSeg_self (b p : ℚ × ℚ) : closestOnSeg p b p = p := by
  unfold closestOnSeg
  simp

theorem foldl_min_le (p c : ℚ × ℚ) (rest : List (ℚ × ℚ)) :
    ∀ x ∈ c :: rest,
      sqDist (rest.foldl
        (fun best cand => if sqDist cand p < sqDist best p then cand else best) c) p
        ≤ sqDist x p := by
  induction rest generalizing c with
  | nil =>
    intro x hx
    simp only [List.mem_cons, List.not_mem_nil, or_false] at hx
    subst hx
    simp
  | cons d ds ih =>
    intro x hx
    have hstep : sqDist (if sqDist d p < sqDist c p then d else c) p ≤ sqDist c p
        ∧ sqDist (if sqDist d p < sqDist c p then d else c) p ≤ sqDist d p := by
      split <;> constructor <;> first | rfl | linarith [le_of_lt (by assumption : sqDist d p < sqDist c p)] | exact le_of_not_lt (by assumption)
    rcases List.mem_cons.mp hx with hxc | hx2
    · subst hxc
      exact le_trans (ih _ _ (List.mem_cons_self _ _)) hstep.1
    · rcases List.mem_cons.mp hx2 with hxd | hxds
      · subst hxd
        exact le_trans (ih _ _ (List.mem_cons_self _ _)) hstep.2
      · exact ih _ _ (List.mem_cons_of_mem _ hxds)

theorem projectPolyline_vertex (pts : List (ℚ × ℚ)) (p : ℚ × ℚ) (hp : p ∈ pts) :
    projectPolyline pts p = p := by
  obtain ⟨i, hi⟩ := List.mem_iff_getElem.mp hp
  obtain ⟨hil, hie⟩ := hi
  unfold projectPolyline
  cases hc : (List.range pts.length).map (fun i =>
      closestOnSeg (pts.getD i (0, 0)) (pts.getD ((i + 1) % pts.length) (0, 0)) p) with
  | nil => rfl
  | cons c rest =>
    have hmem : closestOnSeg (pts.getD i (0, 0)) (pts.getD ((i + 1) % pts.length) (0, 0)) p
        ∈ c :: rest := by
      rw [← hc]
      exact List.mem_map_of_mem _ (List.mem_range.mpr hil)
    have hzero : sqDist (closestOnSeg (pts.getD i (0, 0))
        (pts.getD ((i + 1) % pts.length) (0, 0)) p) p = 0 := by
      rw [List.getD_eq_getElem pts (0, 0) hil, hie, closestOnSeg_self]
      simp [sqDist]
    have hle := foldl_min_le p c rest _ hmem
    rw [hzero] at hle
    exact sqDist_eq_zero _ _ (le_antisymm hle (sqDist_nonneg _ _))

/-- C5: a rigid boundary node of the intermediate grid is pinned by an
identity row to its current position; any solution of those rows places
it at its old position, and the re-projection onto the sampled boundary
curve (on which the node lies, at a polyline vertex) returns the same
position, so the node undergoes no smoothing displacement in the
iteration. -/
theorem rigid_node_unmoved (g : SmoothGrid) (curvePts : List (ℚ × ℚ)) (v : ℕ → ℚ) (n : ℕ)
    (hrig : g.rigid n = true)
    (hsol : ∀ r ∈ rigid_rows g n, rowEval r.1 v = r.2)
    (hvert : g.pos n ∈ curvePts) :
    smoothUpdatePos curvePts g v n = g.pos n := by
  have h1 : v n = (g.pos n).1 := by
    have := hsol ([(n, 1)], (g.pos n).1) (by simp [rigid_rows])
    simpa [rowEval] using this
  have h2 : v (g.N + n) = (g.pos n).2 := by
    have := hsol ([(g.N + n, 1)], (g.pos n).2) (by simp [rigid_rows])
    simpa [rowEval] using this
  unfold smoothUpdatePos
  rw [h1, h2]
  split
  · exact projectPolyline_vertex _ _ hvert
  · rfl

/-- Witness for C5: the rigid node 0 of c5Grid, on the unit-square
polyline, with the zero solution vector satisfying its identity rows. -/
theorem rigid_node_unmoved_witness :
    c5Grid.rigid 0 = true
      ∧ (∀ r ∈ rigid_rows c5Grid 0, rowEval r.1 (fun _ => 0) = r.2)
      ∧ c5Grid.pos 0 ∈ [((0 : ℚ), (0 : ℚ)), (2, 0), (2, 2), (0, 2)]
      ∧ smoothUpdatePos [((0 : ℚ), (0 : ℚ)), (2, 0), (2, 2), (0, 2)] c5Grid (fun _ => 0) 0
          = c5Grid.pos 0 :=
  ⟨rfl, by decide, by decide,
    rigid_node_unmoved c5Grid [((0 : ℚ), (0 : ℚ)), (2, 0), (2, 2), (0, 2)] (fun _ => 0) 0
      rfl (by decide) (by decide)⟩

theorem slideNeighborData_isSome (g : SmoothGrid) (l : List ℕ) :
    (slideNeighborData g l).isSome = true
      ↔ ∀ n ∈ l, g.is_boundary_node n = true → g.rigid n = false →
          ((g.node_to_nodes n).filter (fun m => decide (0 ≤ g.gen_j m))).length = 2
            ∧ ((g.node_to_nodes n).filter (fun m => decide (g.gen_j m < 0))).length = 1 := by
  induction l with
  | nil => simp [slideNeighborData]
  | cons n rest ih =>
    simp only [slideNeighborData]
    by_cases hbnd : g.is_boundary_node n = true
    · rw [if_pos hbnd]
      by_cases hr : g.rigid n = true
      · rw [if_pos hr]
        rw [ih]
        constructor
        · intro h m hm
          rcases List.mem_cons.mp hm with hmn | hmr
          · subst hmn
            intro _ hrf
            rw [hr] at hrf
            cases hrf
          · exact h m hmr
        · intro h m hm
          exact h m (List.mem_cons_of_mem _ hm)
      · rw [if_neg hr]
        split
        next hcnt =>
          simp only [Option.isSome_map']
          rw [ih]
          constructor
          · intro h m hm
            rcases List.mem_cons.mp hm with hmn | hmr
            · subst hmn
              intro _ _
              exact hcnt
            · exact h m hmr
          · intro h m hm
            exact h m (List.mem_cons_of_mem _ hm)
        next hcnt =>
          constructor
          · intro h
            simp at h
          · intro h
            have hrf : g.rigid n = false := by
              cases hx : g.rigid n
              · rfl
              · exact absurd hx hr
            exact absurd (h n (List.mem_cons_self _ _) hbnd hrf) hcnt
    · rw [if_neg hbnd]
      rw [ih]
      constructor
      · intro h m hm
        rcases List.mem_cons.mp hm with hmn | hmr
        · subst hmn
          intro hbt
          exact absurd hbt hbnd
        · exact h m hmr
      · intro h m hm
        exact h m (List.mem_cons_of_mem _ hm)

/-- C6: the per-iteration assembly checks, by explicit assertions before
the solve, that every non-rigid boundary node has exactly two neighbors
with gen_j >= 0 (boundary neighbors) and exactly one neighbor with
gen_j < 0 (interior neighbor): the assembly succeeds if and only if
every such node satisfies both counts, and a violating node makes it
fail fatally. -/
theorem smooth_boundary_neighbor_checks (g : SmoothGrid) :
    (slideNeighborData g g.nodes).isSome = true
      ↔ ∀ n ∈ g.nodes, g.is_boundary_node n = true → g.rigid n = false →
          ((g.node_to_nodes n).filter (fun m => decide (0 ≤ g.gen_j m))).length = 2
            ∧ ((g.node_to_nodes n).filter (fun m => decide (g.gen_j m < 0))).length = 1 :=
  slideNeighborData_isSome g g.nodes

theorem floatq_add_finite (a b : FloatQ) (h : (FloatQ.add a b).isFinite = true) :
    a.isFinite = true ∧ b.isFinite = true := by
  cases a <;> cases b <;> simp_all [FloatQ.add, FloatQ.isFinite]

theorem floatq_add_finite_of (a b : FloatQ) (ha : a.isFinite = true) (hb : b.isFinite = true) :
    (FloatQ.add a b).isFinite = true := by
  cases a <;> cases b <;> simp_all [FloatQ.add, FloatQ.isFinite]

theorem floatq_foldl_add_finite (l : List FloatQ) :
    ∀ acc, ((l.foldl FloatQ.add acc).isFinite = true) →
      acc.isFinite = true ∧ ∀ x ∈ l, x.isFinite = true := by
  induction l with
  | nil =>
    intro acc h
    exact ⟨h, by simp⟩
  | cons a t ih =>
    intro acc h
    rw [List.foldl_cons] at h
    obtain ⟨hacc, htail⟩ := ih _ h
    obtain ⟨h1, h2⟩ := floatq_add_finite _ _ hacc
    refine ⟨h1, ?_⟩
    intro x hx
    rcases List.mem_cons.mp hx with rfl | hx2
    · exact h2
    · exact htail x hx2

theorem floatq_divmul_zero (c w : ℚ) :
    (FloatQ.mul (FloatQ.div (.val c) (.val 0)) (.val w)).isFinite = false := by
  simp only [FloatQ.div, if_pos rfl]
  split_ifs <;> simp only [FloatQ.mul] <;> first | (split_ifs <;> rfl) | rfl

theorem floatq_divmul_finite (c q w : ℚ) :
    (FloatQ.mul (FloatQ.div (.val c) (.val q)) (.val w)).isFinite = true ↔ q ≠ 0 := by
  by_cases hq : q = 0
  · subst hq
    rw [floatq_divmul_zero]
    simp
  · simp [FloatQ.div, hq, FloatQ.mul, FloatQ.isFinite]

theorem lap_alpha0F_areas (X Y : ℕ → ℚ) (A : ℕ → ℚ) (P M : ℕ)
    (h : (((List.range M).map (fun e => lapAlpha0TermF X Y A P e)).foldl
      FloatQ.add (.val 0)).isFinite = true) :
    ∀ e, e < M → 4 * A e ≠ 0 := by
  intro e he
  have hmem := (floatq_foldl_add_finite _ _ h).2 (lapAlpha0TermF X Y A P e)
    (List.mem_map_of_mem _ (List.mem_range.mpr he))
  unfold lapAlpha0TermF at hmem
  exact (floatq_divmul_finite _ _ _).mp hmem

theorem fan_alpha0F_AT (w : ℕ → ℚ) (AT : ℚ) (M : ℕ) (hM : M ≠ 0)
    (h : (((List.range M).map (fun e =>
        FloatQ.mul (FloatQ.div (.val 1) (.val (2 * AT))) (.val (w e)))).foldl
      FloatQ.add (.val 0)).isFinite = true) :
    2 * AT ≠ 0 := by
  have hmem := (floatq_foldl_add_finite _ _ h).2
    (FloatQ.mul (FloatQ.div (.val 1) (.val (2 * AT))) (.val (w (0 : ℕ))))
    (List.mem_map_of_mem _ (List.mem_range.mpr (Nat.pos_of_ne_zero hM)))
  exact (floatq_divmul_finite _ _ _).mp hmem

theorem lapAlphaF_finite (X Y : ℕ → ℚ) (x0 y0 : ℚ) (A : ℕ → ℚ) (P M n : ℕ) (hM : M ≠ 0)
    (hA : ∀ e, e < M → 4 * A e ≠ 0) : (lapAlphaF X Y x0 y0 A P M n).isFinite = true := by
  unfold lapAlphaF
  apply floatq_add_finite_of
  · split
    · exact (floatq_divmul_finite _ _ _).mpr
        (hA _ (Nat.mod_lt _ (Nat.pos_of_ne_zero hM)))
    · rfl
  · split
    · exact (floatq_divmul_finite _ _ _).mpr (hA n (by assumption))
    · rfl

theorem dxAlphaF_finite (Y : ℕ → ℚ) (y0 : ℚ) (AT : ℚ) (P M n : ℕ)
    (hAT : 2 * AT ≠ 0) : (dxAlphaF Y y0 AT P M n).isFinite = true := by
  unfold dxAlphaF
  apply floatq_add_finite_of
  · split
    · exact (floatq_divmul_finite _ _ _).mpr hAT
    · rfl
  · split
    · exact (floatq_divmul_finite _ _ _).mpr hAT
    · rfl

theorem dyAlphaF_finite (X : ℕ → ℚ) (x0 : ℚ) (AT : ℚ) (P M n : ℕ)
    (hAT : 2 * AT ≠ 0) : (dyAlphaF X x0 AT P M n).isFinite = true := by
  unfold dyAlphaF
  apply floatq_add_finite_of
  · split
    · exact (floatq_divmul_finite _ _ _).mpr hAT
    · rfl
  · split
    · exact (floatq_divmul_finite _ _ _).mpr hAT
    · rfl

/-- All neighbor coefficients of a row are finite once the self
coefficient is: the guard excludes the M = 0 crash, a nonempty row forces
P > 0 hence M > 0, and the finiteness of every alpha0 term gives nonzero
divisors for every neighbor term. -/
theorem alphasF_all_finite (X Y : ℕ → ℚ) (x0 y0 : ℚ) (A : ℕ → ℚ) (AT : ℚ) (P M : ℕ)
    (op : DiffOp)
    (hguard : ¬(M = 0 ∧ 0 < P))
    (hfin : (((List.range M).map (alpha0FTermOf X Y A AT P op)).foldl
      FloatQ.add (.val 0)).isFinite = true) :
    ∀ a ∈ (List.range P).map (alphaFOf X Y x0 y0 A AT P M op), a.isFinite = true := by
  intro a ha
  obtain ⟨n, hn, rfl⟩ := List.mem_map.mp ha
  have hP : 0 < P := Nat.lt_of_le_of_lt (Nat.zero_le n) (List.mem_range.mp hn)
  have hM : M ≠ 0 := fun hM0 => hguard ⟨hM0, hP⟩
  cases op with
  | laplacian =>
    simp only [alphaFOf]
    exact lapAlphaF_finite X Y x0 y0 A P M n hM
      (lap_alpha0F_areas X Y A P M (by simpa [alpha0FTermOf] using hfin))
  | dx =>
    simp only [alphaFOf]
    exact dxAlphaF_finite Y y0 AT P M n
      (fan_alpha0F_AT (fun e => Y e - Y ((e + 1) % P)) AT M hM
        (by simpa [alpha0FTermOf] using hfin))
  | dy =>
    simp only [alphaFOf]
    exact dyAlphaF_finite X x0 AT P M n
      (fan_alpha0F_AT (fun e => X ((e + 1) % P) - X e) AT M hM
        (by simpa [alpha0FTermOf] using hfin))

/-- C7: whenever node_discretization returns normally (the isfinite
assertion on the self coefficient alpha0 passes), every coefficient of
the returned row, the self coefficient and all neighbor coefficients, is
finite, for each operator laplacian, dx, dy: a non-finite neighbor
coefficient forces a non-finite alpha0 and hence the fatal assertion. -/
theorem node_discretizationF_all_finite (g : DiscGrid) (n0 : ℕ) (op : DiffOp)
    (ns : List ℕ) (cs : List FloatQ) (rhs : FloatQ)
    (h : node_discretizationF g n0 op = some (ns, cs, rhs)) :
    ∀ a ∈ cs, a.isFinite = true := by
  by_cases hb : g.is_boundary_node n0 = true
  · simp only [node_discretizationF, hb, if_true] at h
    split at h
    · exact absurd h (by simp)
    next N heq =>
      split at h
      · exact absurd h (by simp)
      next hguard =>
        split at h
        case isFalse => exact absurd h (by simp)
        case isTrue hfin =>
          rw [Option.some.injEq] at h
          have hcs := congrArg (fun t => t.2.1) h
          simp only at hcs
          intro a ha
          rw [← hcs] at ha
          rcases List.mem_cons.mp ha with rfl | hmem
          · exact hfin
          · exact alphasF_all_finite _ _ _ _ _ _ _ _ op hguard hfin _ hmem
  · simp only [node_discretizationF, hb, Bool.false_eq_true, if_false, Nat.sub_zero] at h
    split at h
    · exact absurd h (by simp)
    next hguard =>
      split at h
      case isFalse => exact absurd h (by simp)
      case isTrue hfin =>
        rw [Option.some.injEq] at h
        have hcs := congrArg (fun t => t.2.1) h
        simp only at hcs
        intro a ha
        rw [← hcs] at ha
        rcases List.mem_cons.mp ha with rfl | hmem
        · exact hfin
        · exact alphasF_all_finite _ _ _ _ _ _ _ _ op hguard hfin _ hmem

/-- Witness for C7: the four-neighbor interior node of c1Grid produces
the laplacian row with coefficients [-4, 1, 1, 1, 1], all finite. -/
theorem node_discretizationF_all_finite_witness :
    node_discretizationF c1Grid 0 .laplacian
        = some ([0, 1, 2, 3, 4],
          [FloatQ.val (-4), FloatQ.val 1, FloatQ.val 1, FloatQ.val 1, FloatQ.val 1],
          FloatQ.val 0)
      ∧ ∀ a ∈ [FloatQ.val (-4), FloatQ.val 1, FloatQ.val 1, FloatQ.val 1, FloatQ.val 1],
          a.isFinite = true :=
  ⟨by decide,
    node_discretizationF_all_finite c1Grid 0 .laplacian [0, 1, 2, 3, 4]
      [FloatQ.val (-4), FloatQ.val 1, FloatQ.val 1, FloatQ.val 1, FloatQ.val 1]
      (FloatQ.val 0) (by decide)⟩

/-- C8: adjust_by_psi_phi is idempotent in its observable output for a
target grid distinct from the intermediate grid: the computed positions
depend only on the target grid's ids and logical coordinates, the
generating grid data, and the intermediate grid's fields and positions,
not on the target grid's current positions, so running it again after
the update yields the same positions. -/
theorem adjust_by_psi_phi_idempotent
    (interpXY : List ((ℚ × ℚ) × (ℚ × ℚ)) → (ℚ × ℚ) → (ℚ × ℚ))
    (gens : List GenNode) (tri : TriGrid) (g : TGrid) (out : List (ℚ × ℚ))
    (h : adjust_by_psi_phi interpXY gens tri g = some out) :
    adjust_by_psi_phi interpXY gens tri (withPos g out) = some out := by
  cases g with
  | mk ids ij pos => exact h

/-- Witness for C8 on a two-node configuration with the identity
scattered interpolator: the computed positions are [(0,1), (1,0)] both
before and after the update. -/
theorem adjust_by_psi_phi_idempotent_witness :
    adjust_by_psi_phi (fun _ q => q)
        [⟨false, true, true, (0, 0), (0, 0)⟩, ⟨false, true, true, (1, 1), (1, 1)⟩]
        ⟨[(0, 0), (1, 1)], [0, 1], [0, 1]⟩
        ⟨[0, 1], fun n => if n = 0 then (0, 0) else (1, 1), [(0, 0), (1, 1)]⟩
        = some [(0, 1), (1, 0)]
      ∧ adjust_by_psi_phi (fun _ q => q)
        [⟨false, true, true, (0, 0), (0, 0)⟩, ⟨false, true, true, (1, 1), (1, 1)⟩]
        ⟨[(0, 0), (1, 1)], [0, 1], [0, 1]⟩
        (withPos ⟨[0, 1], fun n => if n = 0 then (0, 0) else (1, 1), [(0, 0), (1, 1)]⟩
          [(0, 1), (1, 0)])
        = some [(0, 1), (1, 0)] :=
  ⟨by decide,
    adjust_by_psi_phi_idempotent (fun _ q => q)
      [⟨false, true, true, (0, 0), (0, 0)⟩, ⟨false, true, true, (1, 1), (1, 1)⟩]
      ⟨[(0, 0), (1, 1)], [0, 1], [0, 1]⟩
      ⟨[0, 1], fun n => if n = 0 then (0, 0) else (1, 1), [(0, 0), (1, 1)]⟩
      [(0, 1), (1, 0)] (by decide)⟩

/-- C9: QuadGen.__init__ never mutates the caller's grid: the input is
copied to a fresh heap index before any mutation, every stage reads and
writes only the copy and the freshly allocated grids, so the caller's
heap entry is unchanged, for arbitrary stage bodies. -/
theorem quad_gen_init_preserves_caller {α : Type} (store : List α) (r0 : ℕ) (d : α)
    (prep : α → α) (mkInt : α → α) (smooth : α → α)
    (mkFinal : α → α → α) (adjust : α → α → α → α)
    (h : r0 < store.length) :
    ((quadGenInitStore store r0 d prep mkInt smooth mkFinal adjust).1).getD r0 d
      = store.getD r0 d := by
  unfold quadGenInitStore
  simp only [List.getD_eq_getElem?_getD]
  rw [List.getElem?_set_ne (by simp [List.length_set]; omega)]
  rw [List.getElem?_append_left (by simp [List.length_set]; omega)]
  rw [List.getElem?_set_ne (by simp; omega)]
  rw [List.getElem?_append_left (by simp; omega)]
  rw [List.getElem?_set_ne (by omega)]
  rw [List.getElem?_append_left h]

/-- Witness for C9: a one-grid heap with identity stage bodies. -/
theorem quad_gen_init_preserves_caller_witness :
    0 < [(42 : ℕ)].length
      ∧ ((quadGenInitStore [(42 : ℕ)] 0 0 id id id (fun a _ => a) (fun a _ _ => a)).1).getD 0 0
          = [(42 : ℕ)].getD 0 0 :=
  ⟨by decide,
    quad_gen_init_preserves_caller [(42 : ℕ)] 0 0 id id id (fun a _ => a) (fun a _ _ => a)
      (by decide)⟩
